import Mathlib

/-!
Verification of the Bitcoin transaction codec (CompactSize, OutPoint,
Script, TransactionInput, BitcoinTransaction) as a shallow embedding of
the Rust source in `src/lib.rs`.  Bytes are modelled as `Fin 256`
(matching `u8`), buffers as `List Byte` (matching `&[u8]` / `Vec<u8>`),
and the machine integers `u16`/`u32`/`u64`/`usize` as `Nat` with explicit
bounds where the Rust type system guarantees them.  A fallible decoder
returning `Result<(T, usize), BitcoinError>` is modelled as a sum type;
`CompactSize::from_bytes` additionally gets a `panicked` outcome because
its unchecked slice indexing can abort the process.
-/

abbrev Byte := Fin 256

/-- Truncating cast of a natural number to a byte, matching `as u8`. -/
def byte (n : Nat) : Byte := ⟨n % 256, Nat.mod_lt _ (by decide)⟩

/-- Little-endian value of a byte list, matching `uNN::from_le_bytes`. -/
def leVal : List Byte → Nat
  | [] => 0
  | b :: bs => b.val + 256 * leVal bs

/-- Little-endian byte list of width `w` for `n`, matching
`(n as uNN).to_le_bytes()` (the cast truncates to `n % 2^(8*w)`). -/
def natToLeBytes : Nat → Nat → List Byte
  | 0, _ => []
  | w + 1, n => byte n :: natToLeBytes w (n / 256)

/-- Mirror of `enum BitcoinError` in the source. -/
inductive BitcoinError where
  | InsufficientBytes
  | InvalidFormat
deriving DecidableEq, Repr

/-- Result of a decoder returning `Result<(T, usize), BitcoinError>`:
a value plus a consumed byte count, or an error. -/
inductive DecodeResult (α : Type) where
  | ok : α → Nat → DecodeResult α
  | err : BitcoinError → DecodeResult α
deriving DecidableEq, Repr

/-- Outcome of a Rust function that can also abort via an out-of-bounds
slice index: a value plus consumed count, an error, or a panic. -/
inductive Outcome (α : Type) where
  | ok : α → Nat → Outcome α
  | err : BitcoinError → Outcome α
  | panicked : Outcome α
deriving DecidableEq, Repr

/-- Mirror of `struct CompactSize { pub value: u64 }`; the `u64` bound
`value < 2^64` is carried as a hypothesis where needed. -/
structure CompactSize where
  value : Nat
deriving DecidableEq, Repr

/-- Mirror of `CompactSize::new`. -/
def CompactSize.new (value : Nat) : CompactSize := ⟨value⟩

/-- Mirror of `CompactSize::to_bytes`: match on the value range and emit
the discriminator byte followed by the little-endian fixed-width value. -/
def CompactSize.to_bytes (c : CompactSize) : List Byte :=
  if c.value ≤ 252 then [byte c.value]
  else if c.value ≤ 65535 then byte 0xFD :: natToLeBytes 2 c.value
  else if c.value ≤ 4294967295 then byte 0xFE :: natToLeBytes 4 c.value
  else byte 0xFF :: natToLeBytes 8 c.value

/-- Mirror of `CompactSize::from_bytes`.  The source checks only for an
empty buffer; in the `0xFD`/`0xFE`/`0xFF` arms it indexes
`bytes[1] .. bytes[width]` directly, which panics (indexes out of
bounds) when fewer than `1 + width` bytes are present. -/
def CompactSize.from_bytes (bytes : List Byte) : Outcome CompactSize :=
  match bytes with
  | [] => .err .InsufficientBytes
  | b :: _ =>
    if b.val ≤ 0xFC then .ok (CompactSize.new b.val) 1
    else if b.val = 0xFD then
      if bytes.length < 3 then .panicked
      else .ok (CompactSize.new (leVal ((bytes.drop 1).take 2))) 3
    else if b.val = 0xFE then
      if bytes.length < 5 then .panicked
      else .ok (CompactSize.new (leVal ((bytes.drop 1).take 4))) 5
    else
      if bytes.length < 9 then .panicked
      else .ok (CompactSize.new (leVal ((bytes.drop 1).take 8))) 9

/-- Mirror of the free function `decode_compact_size`, which (unlike
`CompactSize::from_bytes`) checks the buffer length in every arm. -/
def decode_compact_size (bytes : List Byte) : DecodeResult Nat :=
  match bytes with
  | [] => .err .InsufficientBytes
  | b :: _ =>
    if b.val ≤ 0xFC then .ok b.val 1
    else if b.val = 0xFD then
      if bytes.length < 3 then .err .InsufficientBytes
      else .ok (leVal ((bytes.drop 1).take 2)) 3
    else if b.val = 0xFE then
      if bytes.length < 5 then .err .InsufficientBytes
      else .ok (leVal ((bytes.drop 1).take 4)) 5
    else
      if bytes.length < 9 then .err .InsufficientBytes
      else .ok (leVal ((bytes.drop 1).take 8)) 9

/-- Mirror of the free function `encode_compact_size`. -/
def encode_compact_size (n : Nat) : List Byte :=
  if n ≤ 0xFC then [byte n]
  else if n ≤ 0xFFFF then byte 0xFD :: natToLeBytes 2 n
  else if n ≤ 0xFFFFFFFF then byte 0xFE :: natToLeBytes 4 n
  else byte 0xFF :: natToLeBytes 8 n

/-- Mirror of `struct Txid(pub [u8; 32])`; the 32-byte bound is carried
as a hypothesis where needed. -/
structure Txid where
  bytes : List Byte
deriving DecidableEq, Repr

/-- Mirror of `struct OutPoint { txid, vout: u32 }`. -/
structure OutPoint where
  txid : Txid
  vout : Nat
deriving DecidableEq, Repr

/-- Mirror of `OutPoint::new`. -/
def OutPoint.new (txid : List Byte) (vout : Nat) : OutPoint := ⟨⟨txid⟩, vout⟩

/-- Mirror of `OutPoint::to_bytes`: txid bytes then vout little-endian. -/
def OutPoint.to_bytes (p : OutPoint) : List Byte :=
  p.txid.bytes ++ natToLeBytes 4 p.vout

/-- Mirror of `OutPoint::from_bytes`: fail below 36 bytes, else read
txid from `bytes[0..32]` and vout from `bytes[32..36]`, consuming 36. -/
def OutPoint.from_bytes (bytes : List Byte) : DecodeResult OutPoint :=
  if bytes.length < 36 then .err .InsufficientBytes
  else .ok (OutPoint.new (bytes.take 32) (leVal ((bytes.drop 32).take 4))) 36

/-- Mirror of `struct Script { pub bytes: Vec<u8> }`. -/
structure Script where
  bytes : List Byte
deriving DecidableEq, Repr

/-- Mirror of `Script::new`. -/
def Script.new (bytes : List Byte) : Script := ⟨bytes⟩

/-- Mirror of `Script::to_bytes`: CompactSize length prefix, then the
raw bytes. -/
def Script.to_bytes (s : Script) : List Byte :=
  encode_compact_size s.bytes.length ++ s.bytes

/-- Mirror of `Script::from_bytes`: decode the CompactSize prefix
(propagating its error), compute `total_len = prefix_len + len as usize`
in 64-bit `usize` arithmetic, require `total_len` bytes in total, then
slice `bytes[prefix_len..total_len]`.  When `prefix_len + len` reaches
`2^64` (a declared length within 9 of `2^64`, reachable from a 9-byte
`0xFF`-prefixed buffer) the Rust code panics: a debug build aborts on
the overflowing addition, and a release build wraps `total_len` to a
value below `prefix_len` so the length check passes vacuously and the
reversed slice `bytes[prefix_len..total_len]` panics. -/
def Script.from_bytes (bytes : List Byte) : Outcome Script :=
  match decode_compact_size bytes with
  | .err e => .err e
  | .ok len plen =>
    if 2 ^ 64 ≤ plen + len then .panicked
    else if bytes.length < plen + len then .err .InsufficientBytes
    else .ok (Script.new ((bytes.drop plen).take len)) (plen + len)

/-- Mirror of `struct TransactionInput`. -/
structure TransactionInput where
  previous_output : OutPoint
  script_sig : Script
  sequence : Nat
deriving DecidableEq, Repr

/-- Mirror of `TransactionInput::new`. -/
def TransactionInput.new (previous_output : OutPoint) (script_sig : Script)
    (sequence : Nat) : TransactionInput :=
  ⟨previous_output, script_sig, sequence⟩

/-- Mirror of `TransactionInput::to_bytes`: OutPoint bytes, Script
bytes, then the sequence number little-endian. -/
def TransactionInput.to_bytes (t : TransactionInput) : List Byte :=
  t.previous_output.to_bytes ++ t.script_sig.to_bytes ++ natToLeBytes 4 t.sequence

/-- Mirror of `TransactionInput::from_bytes`: OutPoint, then Script on
the remainder, then 4 bytes of sequence number, propagating each
sub-decoder error via `?`; a panic in the Script sub-decode unwinds
through this frame. -/
def TransactionInput.from_bytes (bytes : List Byte) : Outcome TransactionInput :=
  match OutPoint.from_bytes bytes with
  | .err e => .err e
  | .ok outpoint outpoint_len =>
    match Script.from_bytes (bytes.drop outpoint_len) with
    | .panicked => .panicked
    | .err e => .err e
    | .ok script_sig script_len =>
      let seq_start := outpoint_len + script_len
      if bytes.length < seq_start + 4 then .err .InsufficientBytes
      else
        .ok (TransactionInput.new outpoint script_sig
              (leVal ((bytes.drop seq_start).take 4))) (seq_start + 4)

/-- Mirror of `struct BitcoinTransaction`. -/
structure BitcoinTransaction where
  version : Nat
  inputs : List TransactionInput
  lock_time : Nat
deriving DecidableEq, Repr

/-- Mirror of `BitcoinTransaction::new`. -/
def BitcoinTransaction.new (version : Nat) (inputs : List TransactionInput)
    (lock_time : Nat) : BitcoinTransaction :=
  ⟨version, inputs, lock_time⟩

/-- Mirror of `BitcoinTransaction::to_bytes`: version little-endian,
CompactSize input count, each input in order, lock time little-endian. -/
def BitcoinTransaction.to_bytes (tx : BitcoinTransaction) : List Byte :=
  natToLeBytes 4 tx.version
    ++ encode_compact_size tx.inputs.length
    ++ (tx.inputs.map TransactionInput.to_bytes).foldr (· ++ ·) []
    ++ natToLeBytes 4 tx.lock_time

/-- Mirror of the `for _ in 0..input_count` loop in
`BitcoinTransaction::from_bytes`: decode `count` inputs from `bytes`
starting at `offset`, threading the running offset and propagating the
first sub-decoder error; a panic in an input sub-decode unwinds out of
the loop. -/
def decodeInputs (bytes : List Byte) : Nat → Nat → Outcome (List TransactionInput)
  | 0, offset => .ok [] offset
  | count + 1, offset =>
    match TransactionInput.from_bytes (bytes.drop offset) with
    | .panicked => .panicked
    | .err e => .err e
    | .ok input consumed =>
      match decodeInputs bytes count (offset + consumed) with
      | .panicked => .panicked
      | .err e => .err e
      | .ok rest off => .ok (input :: rest) off

/-- Mirror of `BitcoinTransaction::from_bytes`: require 4 bytes of
version, decode the CompactSize input count from offset 4, decode that
many inputs sequentially, require 4 bytes of lock time, and return the
final offset as the consumed count; a panic in the input loop unwinds
through this frame. -/
def BitcoinTransaction.from_bytes (bytes : List Byte) : Outcome BitcoinTransaction :=
  if bytes.length < 4 then .err .InsufficientBytes
  else
    let version := leVal (bytes.take 4)
    match decode_compact_size (bytes.drop 4) with
    | .err e => .err e
    | .ok input_count c =>
      match decodeInputs bytes input_count (c + 4) with
      | .panicked => .panicked
      | .err e => .err e
      | .ok inputs offset =>
        if bytes.length < offset + 4 then .err .InsufficientBytes
        else
          .ok (BitcoinTransaction.new version inputs
                (leVal ((bytes.drop offset).take 4))) (offset + 4)

/-- Value of a single hex digit character, as accepted by the
`hex::decode` call in `Txid::deserialize` (both letter cases). -/
def hexDigitVal (c : Char) : Option Nat :=
  if 48 ≤ c.toNat ∧ c.toNat ≤ 57 then some (c.toNat - 48)
  else if 97 ≤ c.toNat ∧ c.toNat ≤ 102 then some (c.toNat - 97 + 10)
  else if 65 ≤ c.toNat ∧ c.toNat ≤ 70 then some (c.toNat - 65 + 10)
  else none

/-- Pairwise hex decoding of a character list: fails on an odd count or
any non-hex character, as `hex::decode` does. -/
def hexPairs : List Char → Option (List Byte)
  | [] => some []
  | [_] => none
  | c1 :: c2 :: rest =>
    match hexDigitVal c1, hexDigitVal c2, hexPairs rest with
    | some h, some l, some bs => some (byte (16 * h + l) :: bs)
    | _, _, _ => none

/-- Mirror of `hex::decode` over the string's characters. -/
def hexDecode (s : String) : Option (List Byte) := hexPairs s.data

/-- Lowercase hex digit character for `n < 16`, as `hex::encode`
produces. -/
def hexDigitChar (n : Nat) : Char :=
  if n < 10 then Char.ofNat (48 + n) else Char.ofNat (97 + n - 10)

/-- Mirror of `hex::encode`: two lowercase hex characters per byte,
high nibble first. -/
def hexEncode (bs : List Byte) : String :=
  String.mk (bs.foldr
    (fun b acc => hexDigitChar (b.val / 16) :: hexDigitChar (b.val % 16) :: acc) [])

/-- Mirror of `Txid::serialize`: the hex encoding of the 32 bytes. -/
def Txid.serialize (t : Txid) : String := hexEncode t.bytes

/-- Mirror of `Txid::deserialize`: hex-decode the string, then require
exactly 32 bytes.  Both failure paths surface through
`serde::de::Error::custom`; in the codec's own error vocabulary
(`BitcoinError`) this malformed-text condition is `InvalidFormat`, so
the embedding reports failures as that kind. -/
def Txid.deserialize (s : String) : Except BitcoinError Txid :=
  match hexDecode s with
  | none => .error .InvalidFormat
  | some bs =>
    if bs.length ≠ 32 then .error .InvalidFormat
    else .ok ⟨bs⟩

/-- Lowercase-hex-character test used to state the text format of
`Txid::serialize`. -/
def isLowerHexChar (c : Char) : Bool :=
  (48 ≤ c.toNat && c.toNat ≤ 57) || (97 ≤ c.toNat && c.toNat ≤ 102)

theorem natToLeBytes_length (w n : Nat) : (natToLeBytes w n).length = w := by
  induction w generalizing n with
  | zero => rfl
  | succ w ih => simp [natToLeBytes, ih]

theorem leVal_natToLeBytes (w n : Nat) : leVal (natToLeBytes w n) = n % 2 ^ (8 * w) := by
  induction w generalizing n with
  | zero => simp [natToLeBytes, leVal, Nat.mod_one]
  | succ w ih =>
    have hpow : 2 ^ (8 * (w + 1)) = 256 * 2 ^ (8 * w) := by ring
    rw [natToLeBytes, leVal, ih, hpow, Nat.mod_mul]
    simp [byte]

theorem leVal_natToLeBytes_of_lt (w n : Nat) (h : n < 2 ^ (8 * w)) :
    leVal (natToLeBytes w n) = n := by
  rw [leVal_natToLeBytes, Nat.mod_eq_of_lt h]

theorem leVal_lt (bs : List Byte) : leVal bs < 2 ^ (8 * bs.length) := by
  induction bs with
  | nil => simp [leVal]
  | cons b rest ih =>
    have hb := b.isLt
    have hpow : 2 ^ (8 * (rest.length + 1)) = 256 * 2 ^ (8 * rest.length) := by ring
    simp only [leVal, List.length_cons, hpow]
    omega

theorem take_width_append (l r : List Byte) (w : Nat) (h : l.length = w) :
    (l ++ r).take w = l := by
  subst h
  exact List.take_left l r

theorem drop_width_append (l r : List Byte) (w : Nat) (h : l.length = w) :
    (l ++ r).drop w = r := by
  subst h
  exact List.drop_left l r

theorem decode_compact_size_cons (b : Byte) (bs : List Byte) :
    decode_compact_size (b :: bs) =
      if b.val ≤ 0xFC then .ok b.val 1
      else if b.val = 0xFD then
        if bs.length < 2 then .err .InsufficientBytes else .ok (leVal (bs.take 2)) 3
      else if b.val = 0xFE then
        if bs.length < 4 then .err .InsufficientBytes else .ok (leVal (bs.take 4)) 5
      else
        if bs.length < 8 then .err .InsufficientBytes else .ok (leVal (bs.take 8)) 9 := by
  simp only [decode_compact_size, List.length_cons, List.drop_one, List.tail_cons]
  split_ifs <;> first | rfl | omega

theorem compact_size_from_bytes_cons (b : Byte) (bs : List Byte) :
    CompactSize.from_bytes (b :: bs) =
      if b.val ≤ 0xFC then .ok (CompactSize.new b.val) 1
      else if b.val = 0xFD then
        if bs.length < 2 then .panicked else .ok (CompactSize.new (leVal (bs.take 2))) 3
      else if b.val = 0xFE then
        if bs.length < 4 then .panicked else .ok (CompactSize.new (leVal (bs.take 4))) 5
      else
        if bs.length < 8 then .panicked else .ok (CompactSize.new (leVal (bs.take 8))) 9 := by
  simp only [CompactSize.from_bytes, List.length_cons, List.drop_one, List.tail_cons]
  split_ifs <;> first | rfl | omega

theorem decode_encode_compact_size (n : Nat) (hn : n < 2 ^ 64) (rest : List Byte) :
    decode_compact_size (encode_compact_size n ++ rest) =
      .ok n (encode_compact_size n).length := by
  by_cases h1 : n ≤ 0xFC
  · have hb : (byte n).val = n := by
      simp only [byte]
      omega
    have henc : encode_compact_size n = [byte n] := by simp [encode_compact_size, h1]
    rw [henc, List.singleton_append, decode_compact_size_cons, hb, if_pos h1]
    rfl
  · by_cases h2 : n ≤ 0xFFFF
    · have hlen : (natToLeBytes 2 n).length = 2 := natToLeBytes_length 2 n
      have henc : encode_compact_size n = byte 0xFD :: natToLeBytes 2 n := by
        simp [encode_compact_size, h1, h2]
      rw [henc, List.cons_append, decode_compact_size_cons,
        if_neg (by norm_num [byte]), if_pos (by norm_num [byte]),
        if_neg (by simp [hlen]),
        take_width_append _ _ _ hlen,
        leVal_natToLeBytes_of_lt 2 n (by norm_num; omega)]
      simp [hlen]
    · by_cases h3 : n ≤ 0xFFFFFFFF
      · have hlen : (natToLeBytes 4 n).length = 4 := natToLeBytes_length 4 n
        have henc : encode_compact_size n = byte 0xFE :: natToLeBytes 4 n := by
          simp [encode_compact_size, h1, h2, h3]
        rw [henc, List.cons_append, decode_compact_size_cons,
          if_neg (by norm_num [byte]), if_neg (by norm_num [byte]),
          if_pos (by norm_num [byte]),
          if_neg (by simp [hlen]),
          take_width_append _ _ _ hlen,
          leVal_natToLeBytes_of_lt 4 n (by norm_num; omega)]
        simp [hlen]
      · have hlen : (natToLeBytes 8 n).length = 8 := natToLeBytes_length 8 n
        have henc : encode_compact_size n = byte 0xFF :: natToLeBytes 8 n := by
          simp [encode_compact_size, h1, h2, h3]
        rw [henc, List.cons_append, decode_compact_size_cons,
          if_neg (by norm_num [byte]), if_neg (by norm_num [byte]),
          if_neg (by norm_num [byte]),
          if_neg (by simp [hlen]),
          take_width_append _ _ _ hlen,
          leVal_natToLeBytes_of_lt 8 n (by norm_num; omega)]
        simp [hlen]

theorem compact_to_bytes_eq_encode (c : CompactSize) :
    c.to_bytes = encode_compact_size c.value := rfl

theorem encode_compact_size_length_le (n : Nat) :
    (encode_compact_size n).length ≤ 9 := by
  rw [encode_compact_size]
  split_ifs <;> simp [natToLeBytes_length]

theorem compact_from_bytes_of_decode_ok (bs : List Byte) (v n : Nat)
    (h : decode_compact_size bs = .ok v n) :
    CompactSize.from_bytes bs = .ok (CompactSize.new v) n := by
  cases bs with
  | nil => simp [decode_compact_size] at h
  | cons b rest =>
    rw [decode_compact_size_cons] at h
    rw [compact_size_from_bytes_cons]
    split_ifs at h ⊢ <;> simp_all

theorem compact_size_roundtrip (c : CompactSize) (h : c.value < 2 ^ 64) :
    CompactSize.from_bytes c.to_bytes = .ok c c.to_bytes.length := by
  have hd := decode_encode_compact_size c.value h []
  rw [List.append_nil] at hd
  have hf := compact_from_bytes_of_decode_ok _ _ _ hd
  rw [compact_to_bytes_eq_encode]
  exact hf

theorem take_drop_append (b s : List Byte) (off w : Nat) (h : off + w ≤ b.length) :
    ((b ++ s).drop off).take w = (b.drop off).take w := by
  rw [List.drop_append_of_le_length (by omega),
    List.take_append_of_le_length (by simp [List.length_drop]; omega)]

/-- Well-formedness of an `OutPoint` value: exactly the invariants the
Rust types carry (`[u8; 32]` txid, `u32` vout) that the `Nat`/`List`
model states explicitly. -/
def OutPoint.WF (p : OutPoint) : Prop :=
  p.txid.bytes.length = 32 ∧ p.vout < 2 ^ 32

/-- Well-formedness of a `Script` value: its length is within the bound
Rust guarantees for any live `Vec<u8>` — a single allocation never
exceeds `isize::MAX` bytes, so the length is below `2^63`.  (The bound
matters: the decoder's `usize` sum `prefix_len + len` only stays free of
overflow for lengths below `2^64 - 9`.) -/
def Script.WF (s : Script) : Prop := s.bytes.length < 2 ^ 63

/-- Well-formedness of a `TransactionInput` value: component
well-formedness plus the `u32` sequence bound. -/
def TransactionInput.WF (t : TransactionInput) : Prop :=
  t.previous_output.WF ∧ t.script_sig.WF ∧ t.sequence < 2 ^ 32

/-- Well-formedness of a `BitcoinTransaction` value: `u32` version and
lock time, `usize` input count, and well-formed inputs. -/
def BitcoinTransaction.WF (tx : BitcoinTransaction) : Prop :=
  tx.version < 2 ^ 32 ∧ tx.lock_time < 2 ^ 32 ∧ tx.inputs.length < 2 ^ 64 ∧
    ∀ i ∈ tx.inputs, i.WF

theorem outpoint_to_bytes_length (p : OutPoint) (h32 : p.txid.bytes.length = 32) :
    p.to_bytes.length = 36 := by
  simp [OutPoint.to_bytes, h32, natToLeBytes_length]

theorem outpoint_decode_encode (p : OutPoint) (hp : p.WF) (rest : List Byte) :
    OutPoint.from_bytes (p.to_bytes ++ rest) = .ok p 36 := by
  obtain ⟨h32, hv⟩ := hp
  have hlen : p.to_bytes.length = 36 := outpoint_to_bytes_length p h32
  have h1 : (p.to_bytes ++ rest).take 32 = p.txid.bytes := by
    rw [OutPoint.to_bytes, List.append_assoc]
    exact take_width_append _ _ _ h32
  have h2 : (p.to_bytes ++ rest).drop 32 = natToLeBytes 4 p.vout ++ rest := by
    rw [OutPoint.to_bytes, List.append_assoc]
    exact drop_width_append _ _ _ h32
  rw [OutPoint.from_bytes, if_neg (by simp [hlen]), h1, h2,
    take_width_append _ _ _ (natToLeBytes_length 4 p.vout),
    leVal_natToLeBytes_of_lt 4 p.vout (by norm_num; omega)]
  rfl

theorem script_decode_encode (s : Script) (hs : s.WF) (rest : List Byte) :
    Script.from_bytes (s.to_bytes ++ rest) = .ok s s.to_bytes.length := by
  have hs63 : s.bytes.length < 2 ^ 63 := hs
  have hs64 : s.bytes.length < 2 ^ 64 := lt_trans hs63 (by norm_num)
  have hd := decode_encode_compact_size s.bytes.length hs64 (s.bytes ++ rest)
  have hple : (encode_compact_size s.bytes.length).length ≤ 9 :=
    encode_compact_size_length_le _
  have h639 : (2 : Nat) ^ 63 + 9 < 2 ^ 64 := by norm_num
  rw [Script.from_bytes, Script.to_bytes, List.append_assoc, hd]
  dsimp only
  rw [if_neg (by omega),
    if_neg (by simp only [List.length_append]; omega),
    drop_width_append _ _ _ rfl,
    take_width_append _ _ _ rfl]
  have hres : Script.new s.bytes = s := rfl
  rw [hres]
  simp [Script.to_bytes]

theorem input_to_bytes_length (t : TransactionInput) (h32 : t.previous_output.txid.bytes.length = 32) :
    t.to_bytes.length = 36 + t.script_sig.to_bytes.length + 4 := by
  simp [TransactionInput.to_bytes, outpoint_to_bytes_length _ h32, natToLeBytes_length]
  omega

theorem input_decode_encode (t : TransactionInput) (ht : t.WF) (rest : List Byte) :
    TransactionInput.from_bytes (t.to_bytes ++ rest) = .ok t t.to_bytes.length := by
  obtain ⟨hop, hs, hq⟩ := ht
  have hassoc : t.to_bytes ++ rest =
      t.previous_output.to_bytes ++
        (t.script_sig.to_bytes ++ (natToLeBytes 4 t.sequence ++ rest)) := by
    simp [TransactionInput.to_bytes]
  have hoplen : t.previous_output.to_bytes.length = 36 :=
    outpoint_to_bytes_length _ hop.1
  rw [TransactionInput.from_bytes, hassoc, outpoint_decode_encode _ hop]
  dsimp only
  rw [drop_width_append _ _ _ hoplen, script_decode_encode _ hs]
  dsimp only
  have hdrop : (t.previous_output.to_bytes ++
      (t.script_sig.to_bytes ++ (natToLeBytes 4 t.sequence ++ rest))).drop
        (36 + t.script_sig.to_bytes.length) = natToLeBytes 4 t.sequence ++ rest := by
    rw [← List.drop_drop, drop_width_append _ _ _ hoplen,
      drop_width_append _ _ _ rfl]
  rw [if_neg (by simp [hoplen, natToLeBytes_length]; omega), hdrop,
    take_width_append _ _ _ (natToLeBytes_length 4 t.sequence),
    leVal_natToLeBytes_of_lt 4 t.sequence (by norm_num; omega)]
  have hlen : t.to_bytes.length = 36 + t.script_sig.to_bytes.length + 4 :=
    input_to_bytes_length t hop.1
  rw [hlen]
  rfl

theorem drop_width_append_add (l r : List Byte) (w off : Nat) (h : l.length = w) :
    (l ++ r).drop (w + off) = r.drop off := by
  rw [← List.drop_drop, drop_width_append _ _ _ h]

theorem decodeInputs_zero (bytes : List Byte) (offset : Nat) :
    decodeInputs bytes 0 offset = .ok [] offset := rfl

theorem decodeInputs_succ (bytes : List Byte) (count offset : Nat) :
    decodeInputs bytes (count + 1) offset =
      match TransactionInput.from_bytes (bytes.drop offset) with
      | .panicked => .panicked
      | .err e => .err e
      | .ok input consumed =>
        match decodeInputs bytes count (offset + consumed) with
        | .panicked => .panicked
        | .err e => .err e
        | .ok rest off => .ok (input :: rest) off := rfl

theorem decodeInputs_encode (inputs : List TransactionInput)
    (hwf : ∀ i ∈ inputs, i.WF) (bytes tail : List Byte) (offset : Nat)
    (h : bytes.drop offset =
      (inputs.map TransactionInput.to_bytes).foldr (· ++ ·) [] ++ tail) :
    decodeInputs bytes inputs.length offset =
      .ok inputs
        (offset + ((inputs.map TransactionInput.to_bytes).foldr (· ++ ·) []).length) := by
  induction inputs generalizing offset tail with
  | nil => simp [decodeInputs_zero]
  | cons i is ih =>
    have hiwf : i.WF := hwf i (by simp)
    have hdrop : bytes.drop offset =
        i.to_bytes ++ ((is.map TransactionInput.to_bytes).foldr (· ++ ·) [] ++ tail) := by
      rw [h]
      simp [List.append_assoc]
    have hdrop2 : bytes.drop (offset + i.to_bytes.length) =
        (is.map TransactionInput.to_bytes).foldr (· ++ ·) [] ++ tail := by
      rw [← List.drop_drop, hdrop, drop_width_append _ _ _ rfl]
    have hrec := ih (fun j hj => hwf j (by simp [hj])) tail (offset + i.to_bytes.length) hdrop2
    simp only [List.length_cons, decodeInputs_succ, hdrop,
      input_decode_encode i hiwf _, hrec]
    simp [List.length_append]
    omega

theorem tx_to_bytes_eq (tx : BitcoinTransaction) :
    tx.to_bytes =
      natToLeBytes 4 tx.version ++
        (encode_compact_size tx.inputs.length ++
          ((tx.inputs.map TransactionInput.to_bytes).foldr (· ++ ·) [] ++
            natToLeBytes 4 tx.lock_time)) := by
  simp [BitcoinTransaction.to_bytes]

theorem tx_decode_encode (tx : BitcoinTransaction) (htx : tx.WF) (rest : List Byte) :
    BitcoinTransaction.from_bytes (tx.to_bytes ++ rest) = .ok tx tx.to_bytes.length := by
  obtain ⟨hv, hl, hc, hwf⟩ := htx
  have hassoc : tx.to_bytes ++ rest =
      natToLeBytes 4 tx.version ++
        (encode_compact_size tx.inputs.length ++
          ((tx.inputs.map TransactionInput.to_bytes).foldr (· ++ ·) [] ++
            (natToLeBytes 4 tx.lock_time ++ rest))) := by
    rw [tx_to_bytes_eq]
    simp [List.append_assoc]
  have h4 : (tx.to_bytes ++ rest).length < 4 → False := by
    rw [hassoc]
    simp [natToLeBytes_length]
  have htake4 : (tx.to_bytes ++ rest).take 4 = natToLeBytes 4 tx.version := by
    rw [hassoc]
    exact take_width_append _ _ _ (natToLeBytes_length 4 _)
  have hdrop4 : (tx.to_bytes ++ rest).drop 4 =
      encode_compact_size tx.inputs.length ++
        ((tx.inputs.map TransactionInput.to_bytes).foldr (· ++ ·) [] ++
          (natToLeBytes 4 tx.lock_time ++ rest)) := by
    rw [hassoc]
    exact drop_width_append _ _ _ (natToLeBytes_length 4 _)
  have hcount := decode_encode_compact_size tx.inputs.length hc
      ((tx.inputs.map TransactionInput.to_bytes).foldr (· ++ ·) [] ++
        (natToLeBytes 4 tx.lock_time ++ rest))
  have hdropOff : (tx.to_bytes ++ rest).drop
      ((encode_compact_size tx.inputs.length).length + 4) =
      (tx.inputs.map TransactionInput.to_bytes).foldr (· ++ ·) [] ++
        (natToLeBytes 4 tx.lock_time ++ rest) := by
    rw [Nat.add_comm, ← List.drop_drop, hdrop4, drop_width_append _ _ _ rfl]
  have hinputs := decodeInputs_encode tx.inputs hwf (tx.to_bytes ++ rest)
      (natToLeBytes 4 tx.lock_time ++ rest)
      ((encode_compact_size tx.inputs.length).length + 4) hdropOff
  have hdropLock : (tx.to_bytes ++ rest).drop
      ((encode_compact_size tx.inputs.length).length + 4 +
        ((tx.inputs.map TransactionInput.to_bytes).foldr (· ++ ·) []).length) =
      natToLeBytes 4 tx.lock_time ++ rest := by
    rw [← List.drop_drop, hdropOff, drop_width_append _ _ _ rfl]
  have hlen : tx.to_bytes.length =
      4 + (encode_compact_size tx.inputs.length).length +
        ((tx.inputs.map TransactionInput.to_bytes).foldr (· ++ ·) []).length + 4 := by
    rw [tx_to_bytes_eq]
    simp [natToLeBytes_length]
    omega
  rw [BitcoinTransaction.from_bytes, if_neg (fun hcon => h4 hcon), hdrop4, hcount]
  dsimp only
  rw [hinputs]
  dsimp only
  rw [if_neg (by simp [hlen]; omega), hdropLock,
    take_width_append _ _ _ (natToLeBytes_length 4 _),
    leVal_natToLeBytes_of_lt 4 tx.lock_time (by norm_num; omega),
    htake4, leVal_natToLeBytes_of_lt 4 tx.version (by norm_num; omega)]
  rw [show (encode_compact_size tx.inputs.length).length + 4 +
      ((tx.inputs.map TransactionInput.to_bytes).foldr (· ++ ·) []).length + 4 =
      tx.to_bytes.length from by omega]
  rfl

theorem decode_compact_size_append (b s : List Byte) (v n : Nat)
    (h : decode_compact_size b = .ok v n) :
    decode_compact_size (b ++ s) = .ok v n ∧ n ≤ b.length := by
  cases b with
  | nil => simp [decode_compact_size] at h
  | cons x xs =>
    rw [decode_compact_size_cons] at h
    rw [List.cons_append, decode_compact_size_cons]
    by_cases h1 : x.val ≤ 0xFC
    · rw [if_pos h1] at h ⊢
      cases h
      exact ⟨rfl, by simp⟩
    · rw [if_neg h1] at h ⊢
      by_cases h2 : x.val = 0xFD
      · rw [if_pos h2] at h ⊢
        by_cases h3 : xs.length < 2
        · rw [if_pos h3] at h; cases h
        · rw [if_neg h3] at h
          cases h
          rw [if_neg (by simp; omega), List.take_append_of_le_length (by omega)]
          exact ⟨rfl, by simp; omega⟩
      · rw [if_neg h2] at h ⊢
        by_cases h4 : x.val = 0xFE
        · rw [if_pos h4] at h ⊢
          by_cases h5 : xs.length < 4
          · rw [if_pos h5] at h; cases h
          · rw [if_neg h5] at h
            cases h
            rw [if_neg (by simp; omega), List.take_append_of_le_length (by omega)]
            exact ⟨rfl, by simp; omega⟩
        · rw [if_neg h4] at h ⊢
          by_cases h6 : xs.length < 8
          · rw [if_pos h6] at h; cases h
          · rw [if_neg h6] at h
            cases h
            rw [if_neg (by simp; omega), List.take_append_of_le_length (by omega)]
            exact ⟨rfl, by simp; omega⟩

theorem outpoint_from_bytes_append (b s : List Byte) (p : OutPoint) (n : Nat)
    (h : OutPoint.from_bytes b = .ok p n) :
    OutPoint.from_bytes (b ++ s) = .ok p n ∧ n ≤ b.length := by
  rw [OutPoint.from_bytes] at h
  by_cases hl : b.length < 36
  · rw [if_pos hl] at h; cases h
  · rw [if_neg hl] at h
    cases h
    rw [OutPoint.from_bytes, if_neg (by simp; omega),
      List.take_append_of_le_length (by omega),
      take_drop_append b s 32 4 (by omega)]
    exact ⟨rfl, by omega⟩

theorem script_from_bytes_append (b s : List Byte) (v : Script) (n : Nat)
    (h : Script.from_bytes b = .ok v n) :
    Script.from_bytes (b ++ s) = .ok v n ∧ n ≤ b.length := by
  rw [Script.from_bytes] at h
  cases hd : decode_compact_size b with
  | err e => rw [hd] at h; simp at h
  | ok len plen =>
    rw [hd] at h
    dsimp only at h
    by_cases hof : 2 ^ 64 ≤ plen + len
    · rw [if_pos hof] at h; cases h
    · rw [if_neg hof] at h
      by_cases hl : b.length < plen + len
      · rw [if_pos hl] at h; cases h
      · rw [if_neg hl] at h
        cases h
        obtain ⟨hdapp, hple⟩ := decode_compact_size_append b s len plen hd
        rw [Script.from_bytes, hdapp]
        dsimp only
        rw [if_neg hof, if_neg (by simp; omega), take_drop_append b s plen len (by omega)]
        exact ⟨rfl, by omega⟩

theorem input_from_bytes_append (b s : List Byte) (t : TransactionInput) (n : Nat)
    (h : TransactionInput.from_bytes b = .ok t n) :
    TransactionInput.from_bytes (b ++ s) = .ok t n ∧ n ≤ b.length := by
  rw [TransactionInput.from_bytes] at h
  cases hop : OutPoint.from_bytes b with
  | err e => rw [hop] at h; simp at h
  | ok p plen =>
    rw [hop] at h
    dsimp only at h
    cases hs : Script.from_bytes (b.drop plen) with
    | panicked => rw [hs] at h; simp at h
    | err e => rw [hs] at h; simp at h
    | ok sc slen =>
      rw [hs] at h
      dsimp only at h
      by_cases hl : b.length < plen + slen + 4
      · rw [if_pos hl] at h; cases h
      · rw [if_neg hl] at h
        cases h
        obtain ⟨hopapp, hople⟩ := outpoint_from_bytes_append b s p plen hop
        have hdropeq : (b ++ s).drop plen = b.drop plen ++ s :=
          List.drop_append_of_le_length (by omega)
        obtain ⟨hscapp, hsle⟩ := script_from_bytes_append (b.drop plen) s sc slen hs
        rw [TransactionInput.from_bytes, hopapp]
        dsimp only
        rw [hdropeq, hscapp]
        dsimp only
        rw [if_neg (by simp; omega), take_drop_append b s (plen + slen) 4 (by omega)]
        exact ⟨rfl, by omega⟩

theorem decodeInputs_append (bytes s : List Byte) (count : Nat) :
    ∀ (offset : Nat) (inputs : List TransactionInput) (off : Nat),
      decodeInputs bytes count offset = .ok inputs off →
      decodeInputs (bytes ++ s) count offset = .ok inputs off := by
  induction count with
  | zero =>
    intro offset inputs off h
    rw [decodeInputs_zero] at h ⊢
    exact h
  | succ c ih =>
    intro offset inputs off h
    rw [decodeInputs_succ] at h ⊢
    cases hi : TransactionInput.from_bytes (bytes.drop offset) with
    | panicked => rw [hi] at h; simp at h
    | err e => rw [hi] at h; simp at h
    | ok input consumed =>
      rw [hi] at h
      dsimp only at h
      have hoff : offset ≤ bytes.length := by
        by_contra hgt
        push_neg at hgt
        have hnil : bytes.drop offset = [] := List.drop_eq_nil_of_le (by omega)
        rw [hnil] at hi
        simp [TransactionInput.from_bytes, OutPoint.from_bytes] at hi
      have hdropeq : (bytes ++ s).drop offset = bytes.drop offset ++ s :=
        List.drop_append_of_le_length hoff
      obtain ⟨hiapp, _⟩ := input_from_bytes_append (bytes.drop offset) s input consumed hi
      rw [hdropeq, hiapp]
      dsimp only
      cases hr : decodeInputs bytes c (offset + consumed) with
      | panicked => rw [hr] at h; simp at h
      | err e => rw [hr] at h; simp at h
      | ok rest roff =>
        rw [hr] at h
        dsimp only at h
        rw [ih _ _ _ hr]
        dsimp only
        exact h

theorem tx_from_bytes_append (b s : List Byte) (tx : BitcoinTransaction) (n : Nat)
    (h : BitcoinTransaction.from_bytes b = .ok tx n) :
    BitcoinTransaction.from_bytes (b ++ s) = .ok tx n ∧ n ≤ b.length := by
  rw [BitcoinTransaction.from_bytes] at h
  by_cases h4 : b.length < 4
  · rw [if_pos h4] at h; cases h
  · rw [if_neg h4] at h
    dsimp only at h
    cases hd : decode_compact_size (b.drop 4) with
    | err e => rw [hd] at h; simp at h
    | ok cnt c =>
      rw [hd] at h
      dsimp only at h
      cases hi : decodeInputs b cnt (c + 4) with
      | panicked => rw [hi] at h; simp at h
      | err e => rw [hi] at h; simp at h
      | ok inputs off =>
        rw [hi] at h
        dsimp only at h
        by_cases hlock : b.length < off + 4
        · rw [if_pos hlock] at h; cases h
        · rw [if_neg hlock] at h
          cases h
          have hdropeq : (b ++ s).drop 4 = b.drop 4 ++ s :=
            List.drop_append_of_le_length (by omega)
          obtain ⟨hdapp, _⟩ := decode_compact_size_append (b.drop 4) s cnt c hd
          rw [BitcoinTransaction.from_bytes, if_neg (by simp; omega)]
          dsimp only
          rw [hdropeq, hdapp]
          dsimp only
          rw [decodeInputs_append b s cnt _ _ _ hi]
          dsimp only
          rw [if_neg (by simp; omega),
            take_drop_append b s off 4 (by omega),
            List.take_append_of_le_length (by omega)]
          exact ⟨rfl, by omega⟩

theorem hexDigitVal_hexDigitChar (n : Nat) (h : n < 16) :
    hexDigitVal (hexDigitChar n) = some n := by
  have hfin : ∀ m : Fin 16, hexDigitVal (hexDigitChar m.val) = some m.val := by decide
  exact hfin ⟨n, h⟩

theorem isLowerHexChar_hexDigitChar (n : Nat) (h : n < 16) :
    isLowerHexChar (hexDigitChar n) = true := by
  have hfin : ∀ m : Fin 16, isLowerHexChar (hexDigitChar m.val) = true := by decide
  exact hfin ⟨n, h⟩

theorem hexEncode_data (bs : List Byte) :
    (hexEncode bs).data = bs.foldr
      (fun b acc => hexDigitChar (b.val / 16) :: hexDigitChar (b.val % 16) :: acc) [] := rfl

theorem hexEncode_length (bs : List Byte) : (hexEncode bs).length = 2 * bs.length := by
  show (bs.foldr
    (fun b acc => hexDigitChar (b.val / 16) :: hexDigitChar (b.val % 16) :: acc) []).length =
      2 * bs.length
  induction bs with
  | nil => rfl
  | cons b rest ih =>
    simp only [List.foldr, List.length_cons, ih]
    omega

theorem hexEncode_lower (bs : List Byte) :
    ∀ c ∈ (hexEncode bs).data, isLowerHexChar c = true := by
  induction bs with
  | nil => simp [hexEncode]
  | cons b rest ih =>
    intro c hc
    have hb := b.isLt
    rw [hexEncode_data, List.foldr] at hc
    simp only [List.mem_cons] at hc
    rcases hc with hc | hc | hc
    · exact hc ▸ isLowerHexChar_hexDigitChar _ (by omega)
    · exact hc ▸ isLowerHexChar_hexDigitChar _ (by omega)
    · exact ih c hc

theorem hexPairs_hexEncode (bs : List Byte) :
    hexPairs (hexEncode bs).data = some bs := by
  induction bs with
  | nil => rfl
  | cons b rest ih =>
    have hb := b.isLt
    have hbyte : byte (16 * (b.val / 16) + b.val % 16) = b := by
      apply Fin.ext
      simp only [byte]
      omega
    rw [hexEncode_data, List.foldr]
    rw [hexPairs, hexDigitVal_hexDigitChar _ (by omega),
      hexDigitVal_hexDigitChar _ (by omega)]
    rw [hexEncode_data] at ih
    rw [ih]
    dsimp only
    rw [hbyte]

theorem hexPairs_length :
    ∀ (l : List Char) (bs : List Byte), hexPairs l = some bs → l.length = 2 * bs.length
  | [], bs, h => by
    simp [hexPairs] at h
    simp [← h]
  | [c], bs, h => by simp [hexPairs] at h
  | c1 :: c2 :: rest, bs, h => by
    rw [hexPairs] at h
    cases hv1 : hexDigitVal c1 with
    | none => rw [hv1] at h; simp at h
    | some hdig =>
      cases hv2 : hexDigitVal c2 with
      | none => rw [hv1, hv2] at h; simp at h
      | some ldig =>
        cases hr : hexPairs rest with
        | none => rw [hv1, hv2, hr] at h; simp at h
        | some tl =>
          rw [hv1, hv2, hr] at h
          dsimp only at h
          have htl := hexPairs_length rest tl hr
          cases h
          simp [List.length_cons, htl]
          omega

theorem hexPairs_valid_chars :
    ∀ (l : List Char) (bs : List Byte), hexPairs l = some bs →
      ∀ c ∈ l, hexDigitVal c ≠ none
  | [], _, _ => by simp
  | [c], bs, h => by simp [hexPairs] at h
  | c1 :: c2 :: rest, bs, h => by
    rw [hexPairs] at h
    cases hv1 : hexDigitVal c1 with
    | none => rw [hv1] at h; simp at h
    | some hdig =>
      cases hv2 : hexDigitVal c2 with
      | none => rw [hv1, hv2] at h; simp at h
      | some ldig =>
        cases hr : hexPairs rest with
        | none => rw [hv1, hv2, hr] at h; simp at h
        | some tl =>
          intro c hc
          simp only [List.mem_cons] at hc
          rcases hc with hc | hc | hc
          · simp [hc, hv1]
          · simp [hc, hv2]
          · exact hexPairs_valid_chars rest tl hr c hc

instance (p : OutPoint) : Decidable p.WF :=
  inferInstanceAs (Decidable (_ ∧ _))

instance (s : Script) : Decidable s.WF :=
  inferInstanceAs (Decidable (_ < _))

instance (t : TransactionInput) : Decidable t.WF :=
  inferInstanceAs (Decidable (_ ∧ _ ∧ _))

instance (tx : BitcoinTransaction) : Decidable tx.WF :=
  inferInstanceAs (Decidable (_ ∧ _ ∧ _ ∧ ∀ i ∈ tx.inputs, i.WF))

theorem decodeInputs_ok_bounds (bytes : List Byte) (cnt : Nat) :
    ∀ (offset : Nat) (inputs : List TransactionInput) (off : Nat),
      decodeInputs bytes cnt offset = .ok inputs off →
      inputs.length = cnt ∧ offset ≤ off := by
  induction cnt with
  | zero =>
    intro offset inputs off h
    rw [decodeInputs_zero] at h
    cases h
    exact ⟨rfl, Nat.le_refl _⟩
  | succ c ih =>
    intro offset inputs off h
    rw [decodeInputs_succ] at h
    cases hi : TransactionInput.from_bytes (bytes.drop offset) with
    | panicked => rw [hi] at h; simp at h
    | err e => rw [hi] at h; simp at h
    | ok input consumed =>
      rw [hi] at h
      dsimp only at h
      cases hr : decodeInputs bytes c (offset + consumed) with
      | panicked => rw [hr] at h; simp at h
      | err e => rw [hr] at h; simp at h
      | ok rest roff =>
        rw [hr] at h
        dsimp only at h
        cases h
        obtain ⟨hlen, hle⟩ := ih _ _ _ hr
        exact ⟨by simp [hlen], by omega⟩

set_option maxRecDepth 4000 in
/-- C1: decoding an empty buffer fails with `InsufficientBytes`, and a
truncated `0xFD`/`0xFE`/`0xFF` buffer should too.  The free function
`decode_compact_size` behaves exactly that way, but the method
`CompactSize::from_bytes` — which the claim also covers — instead
panics (indexes out of bounds) on every buffer of the form `[0xFD, x]`,
contradicting its own in-function comment about checking that enough
bytes are available. -/
theorem spec_C1 :
    CompactSize.from_bytes [] = .err .InsufficientBytes
    ∧ (∀ x : Byte, CompactSize.from_bytes [byte 0xFD, x] = Outcome.panicked)
    ∧ decode_compact_size [] = .err .InsufficientBytes
    ∧ (∀ x : Byte, decode_compact_size [byte 0xFD, x] = .err .InsufficientBytes)
    ∧ (∀ x : Byte, decode_compact_size [byte 0xFE, x] = .err .InsufficientBytes)
    ∧ (∀ x : Byte, decode_compact_size [byte 0xFF, x] = .err .InsufficientBytes) := by
  refine ⟨rfl, ?_, rfl, ?_, ?_, ?_⟩ <;> decide

/-- C2: for every well-formed value of each codec type, decoding the
encoding succeeds, reproduces the value exactly, and reports the full
encoded length as consumed. -/
theorem spec_C2 :
    (∀ c : CompactSize, c.value < 2 ^ 64 →
      CompactSize.from_bytes c.to_bytes = .ok c c.to_bytes.length)
    ∧ (∀ p : OutPoint, p.WF →
        OutPoint.from_bytes p.to_bytes = .ok p p.to_bytes.length)
    ∧ (∀ s : Script, s.WF →
        Script.from_bytes s.to_bytes = .ok s s.to_bytes.length)
    ∧ (∀ t : TransactionInput, t.WF →
        TransactionInput.from_bytes t.to_bytes = .ok t t.to_bytes.length)
    ∧ (∀ tx : BitcoinTransaction, tx.WF →
        BitcoinTransaction.from_bytes tx.to_bytes = .ok tx tx.to_bytes.length) := by
  refine ⟨compact_size_roundtrip, ?_, ?_, ?_, ?_⟩
  · intro p hp
    have h := outpoint_decode_encode p hp []
    rw [List.append_nil] at h
    rw [h, outpoint_to_bytes_length p hp.1]
  · intro s hs
    have h := script_decode_encode s hs []
    rwa [List.append_nil] at h
  · intro t ht
    have h := input_decode_encode t ht []
    rwa [List.append_nil] at h
  · intro tx htx
    have h := tx_decode_encode tx htx []
    rwa [List.append_nil] at h

/-- Witness for C2: the round trip evaluated at concrete values of each
type, including the 50-byte single-input transaction scenario. -/
theorem spec_C2_witness :
    CompactSize.from_bytes (CompactSize.new 300).to_bytes =
      .ok (CompactSize.new 300) (CompactSize.new 300).to_bytes.length
    ∧ OutPoint.from_bytes (OutPoint.new (List.replicate 32 (byte 7)) 5).to_bytes =
        .ok (OutPoint.new (List.replicate 32 (byte 7)) 5)
          (OutPoint.new (List.replicate 32 (byte 7)) 5).to_bytes.length
    ∧ Script.from_bytes (Script.new [byte 1, byte 2]).to_bytes =
        .ok (Script.new [byte 1, byte 2]) (Script.new [byte 1, byte 2]).to_bytes.length
    ∧ TransactionInput.from_bytes
        (TransactionInput.new (OutPoint.new (List.replicate 32 (byte 0)) 4294967295)
          (Script.new []) 4294967295).to_bytes =
        .ok (TransactionInput.new (OutPoint.new (List.replicate 32 (byte 0)) 4294967295)
          (Script.new []) 4294967295)
          (TransactionInput.new (OutPoint.new (List.replicate 32 (byte 0)) 4294967295)
            (Script.new []) 4294967295).to_bytes.length
    ∧ BitcoinTransaction.from_bytes
        (BitcoinTransaction.new 1
          [TransactionInput.new (OutPoint.new (List.replicate 32 (byte 0)) 4294967295)
            (Script.new []) 4294967295] 0).to_bytes =
        .ok (BitcoinTransaction.new 1
          [TransactionInput.new (OutPoint.new (List.replicate 32 (byte 0)) 4294967295)
            (Script.new []) 4294967295] 0)
          (BitcoinTransaction.new 1
            [TransactionInput.new (OutPoint.new (List.replicate 32 (byte 0)) 4294967295)
              (Script.new []) 4294967295] 0).to_bytes.length :=
  ⟨spec_C2.1 (CompactSize.new 300) (by decide),
   spec_C2.2.1 (OutPoint.new (List.replicate 32 (byte 7)) 5) (by decide),
   spec_C2.2.2.1 (Script.new [byte 1, byte 2]) (by decide),
   spec_C2.2.2.2.1 (TransactionInput.new (OutPoint.new (List.replicate 32 (byte 0)) 4294967295)
     (Script.new []) 4294967295) (by decide),
   spec_C2.2.2.2.2 (BitcoinTransaction.new 1
     [TransactionInput.new (OutPoint.new (List.replicate 32 (byte 0)) 4294967295)
       (Script.new []) 4294967295] 0) (by decide)⟩

/-- C3: CompactSize encoding always emits the shortest applicable form
by value range — a single byte for 0..=252, `0xFD` plus 2-byte
little-endian for 253..=65535, `0xFE` plus 4-byte little-endian up to
4294967295, `0xFF` plus 8-byte little-endian above; in particular the
boundary values 252/253/65536/4294967296 encode to 1/3/5/9 bytes with
the stated leading byte, and `encode_compact_size` agrees with
`CompactSize::to_bytes`. -/
theorem spec_C3 :
    (∀ c : CompactSize, c.value ≤ 252 →
      c.to_bytes = [byte c.value] ∧ c.to_bytes.length = 1)
    ∧ (∀ c : CompactSize, 253 ≤ c.value → c.value ≤ 65535 →
        c.to_bytes = byte 0xFD :: natToLeBytes 2 c.value ∧ c.to_bytes.length = 3)
    ∧ (∀ c : CompactSize, 65536 ≤ c.value → c.value ≤ 4294967295 →
        c.to_bytes = byte 0xFE :: natToLeBytes 4 c.value ∧ c.to_bytes.length = 5)
    ∧ (∀ c : CompactSize, 4294967296 ≤ c.value →
        c.to_bytes = byte 0xFF :: natToLeBytes 8 c.value ∧ c.to_bytes.length = 9)
    ∧ (∀ n : Nat, encode_compact_size n = (CompactSize.new n).to_bytes)
    ∧ (CompactSize.new 252).to_bytes.length = 1
    ∧ (CompactSize.new 253).to_bytes.length = 3
    ∧ (CompactSize.new 253).to_bytes.head? = some (byte 0xFD)
    ∧ (CompactSize.new 65536).to_bytes.length = 5
    ∧ (CompactSize.new 65536).to_bytes.head? = some (byte 0xFE)
    ∧ (CompactSize.new 4294967296).to_bytes.length = 9
    ∧ (CompactSize.new 4294967296).to_bytes.head? = some (byte 0xFF) := by
  refine ⟨?_, ?_, ?_, ?_, fun _ => rfl, by decide, by decide, by decide, by decide,
    by decide, by decide, by decide⟩
  · intro c h
    have he : c.to_bytes = [byte c.value] := by
      rw [CompactSize.to_bytes, if_pos h]
    exact ⟨he, by rw [he]; rfl⟩
  · intro c h1 h2
    have he : c.to_bytes = byte 0xFD :: natToLeBytes 2 c.value := by
      rw [CompactSize.to_bytes, if_neg (by omega), if_pos h2]
    exact ⟨he, by rw [he]; simp [natToLeBytes_length]⟩
  · intro c h1 h2
    have he : c.to_bytes = byte 0xFE :: natToLeBytes 4 c.value := by
      rw [CompactSize.to_bytes, if_neg (by omega), if_neg (by omega), if_pos h2]
    exact ⟨he, by rw [he]; simp [natToLeBytes_length]⟩
  · intro c h1
    have he : c.to_bytes = byte 0xFF :: natToLeBytes 8 c.value := by
      rw [CompactSize.to_bytes, if_neg (by omega), if_neg (by omega), if_neg (by omega)]
    exact ⟨he, by rw [he]; simp [natToLeBytes_length]⟩

/-- Witness for C3: the range cases evaluated at 200, 300, 70000 and
4294967296. -/
theorem spec_C3_witness :
    ((CompactSize.new 200).to_bytes = [byte 200] ∧ (CompactSize.new 200).to_bytes.length = 1)
    ∧ ((CompactSize.new 300).to_bytes = byte 0xFD :: natToLeBytes 2 300 ∧
        (CompactSize.new 300).to_bytes.length = 3)
    ∧ ((CompactSize.new 70000).to_bytes = byte 0xFE :: natToLeBytes 4 70000 ∧
        (CompactSize.new 70000).to_bytes.length = 5)
    ∧ ((CompactSize.new 4294967296).to_bytes = byte 0xFF :: natToLeBytes 8 4294967296 ∧
        (CompactSize.new 4294967296).to_bytes.length = 9) :=
  ⟨spec_C3.1 (CompactSize.new 200) (by decide),
   spec_C3.2.1 (CompactSize.new 300) (by decide) (by decide),
   spec_C3.2.2.1 (CompactSize.new 70000) (by decide) (by decide),
   spec_C3.2.2.2.1 (CompactSize.new 4294967296) (by decide)⟩

/-- C4: CompactSize decoding with enough bytes for its prefix returns
the single byte (consuming 1) for a first byte ≤ 0xFC, and the 2/4/8
little-endian bytes after an `0xFD`/`0xFE`/`0xFF` prefix (consuming
3/5/9); every one of the 256 first-byte values is accepted given enough
bytes — including non-canonical encodings — and `[0xFD, 0x00, 0x01]`
decodes to 256 with 3 consumed. -/
theorem spec_C4 :
    (∀ (b : Byte) (bs : List Byte), b.val ≤ 0xFC →
      CompactSize.from_bytes (b :: bs) = .ok (CompactSize.new b.val) 1)
    ∧ (∀ (b : Byte) (bs : List Byte), b.val = 0xFD → 2 ≤ bs.length →
        CompactSize.from_bytes (b :: bs) = .ok (CompactSize.new (leVal (bs.take 2))) 3)
    ∧ (∀ (b : Byte) (bs : List Byte), b.val = 0xFE → 4 ≤ bs.length →
        CompactSize.from_bytes (b :: bs) = .ok (CompactSize.new (leVal (bs.take 4))) 5)
    ∧ (∀ (b : Byte) (bs : List Byte), b.val = 0xFF → 8 ≤ bs.length →
        CompactSize.from_bytes (b :: bs) = .ok (CompactSize.new (leVal (bs.take 8))) 9)
    ∧ (∀ (b : Byte) (bs : List Byte), 8 ≤ bs.length →
        ∃ v n, CompactSize.from_bytes (b :: bs) = .ok v n)
    ∧ CompactSize.from_bytes [byte 0xFD, byte 0x00, byte 0x01] = .ok (CompactSize.new 256) 3
    ∧ CompactSize.from_bytes [byte 0xFD, byte 0x05, byte 0x00] = .ok (CompactSize.new 5) 3 := by
  refine ⟨?_, ?_, ?_, ?_, ?_, by decide, by decide⟩
  · intro b bs h
    rw [compact_size_from_bytes_cons, if_pos h]
  · intro b bs h h2
    rw [compact_size_from_bytes_cons, if_neg (by omega), if_pos h, if_neg (by omega)]
  · intro b bs h h4
    rw [compact_size_from_bytes_cons, if_neg (by omega), if_neg (by omega), if_pos h,
      if_neg (by omega)]
  · intro b bs h h8
    rw [compact_size_from_bytes_cons, if_neg (by omega), if_neg (by omega), if_neg (by omega),
      if_neg (by omega)]
  · intro b bs h8
    rw [compact_size_from_bytes_cons]
    by_cases h1 : b.val ≤ 0xFC
    · exact ⟨_, _, by rw [if_pos h1]⟩
    · by_cases h2 : b.val = 0xFD
      · exact ⟨_, _, by rw [if_neg h1, if_pos h2, if_neg (by omega)]⟩
      · by_cases h3 : b.val = 0xFE
        · exact ⟨_, _, by rw [if_neg h1, if_neg h2, if_pos h3, if_neg (by omega)]⟩
        · exact ⟨_, _, by rw [if_neg h1, if_neg h2, if_neg h3, if_neg (by omega)]⟩

/-- Witness for C4: the four prefix shapes and the acceptance clause
evaluated at concrete buffers. -/
theorem spec_C4_witness :
    CompactSize.from_bytes [byte 0x07, byte 0xAA] = .ok (CompactSize.new 7) 1
    ∧ CompactSize.from_bytes [byte 0xFD, byte 0x02, byte 0x01] =
        .ok (CompactSize.new (leVal [byte 0x02, byte 0x01])) 3
    ∧ CompactSize.from_bytes (byte 0xFE :: List.replicate 4 (byte 1)) =
        .ok (CompactSize.new (leVal ((List.replicate 4 (byte 1)).take 4))) 5
    ∧ CompactSize.from_bytes (byte 0xFF :: List.replicate 8 (byte 1)) =
        .ok (CompactSize.new (leVal ((List.replicate 8 (byte 1)).take 8))) 9
    ∧ ∃ v n, CompactSize.from_bytes (byte 0xFE :: List.replicate 8 (byte 3)) = .ok v n :=
  ⟨spec_C4.1 (byte 0x07) [byte 0xAA] (by decide),
   spec_C4.2.1 (byte 0xFD) [byte 0x02, byte 0x01] (by decide) (by decide),
   spec_C4.2.2.1 (byte 0xFE) (List.replicate 4 (byte 1)) (by decide) (by decide),
   spec_C4.2.2.2.1 (byte 0xFF) (List.replicate 8 (byte 1)) (by decide) (by decide),
   spec_C4.2.2.2.2.1 (byte 0xFE) (List.replicate 8 (byte 3)) (by decide)⟩

/-- C5: `OutPoint::from_bytes` fails with `InsufficientBytes` exactly on
buffers shorter than 36 bytes; on any buffer of at least 36 bytes it
succeeds, consuming exactly 36, reading the identifier from the first 32
bytes and the index from bytes 32..36 little-endian — the layout
`OutPoint::to_bytes` produces. -/
theorem spec_C5 :
    (∀ bs : List Byte, bs.length < 36 → OutPoint.from_bytes bs = .err .InsufficientBytes)
    ∧ (∀ bs : List Byte, 36 ≤ bs.length →
        OutPoint.from_bytes bs =
          .ok (OutPoint.new (bs.take 32) (leVal ((bs.drop 32).take 4))) 36)
    ∧ (∀ p : OutPoint, p.to_bytes = p.txid.bytes ++ natToLeBytes 4 p.vout)
    ∧ (∀ p : OutPoint, p.WF → OutPoint.from_bytes p.to_bytes = .ok p 36) := by
  refine ⟨?_, ?_, fun _ => rfl, ?_⟩
  · intro bs h
    rw [OutPoint.from_bytes, if_pos h]
  · intro bs h
    rw [OutPoint.from_bytes, if_neg (by omega)]
  · intro p hp
    have h := outpoint_decode_encode p hp []
    rwa [List.append_nil] at h

/-- Witness for C5: the three fallible clauses evaluated at a 35-byte
buffer, a 36-byte buffer, and a concrete well-formed OutPoint. -/
theorem spec_C5_witness :
    OutPoint.from_bytes (List.replicate 35 (byte 0)) = .err .InsufficientBytes
    ∧ OutPoint.from_bytes (List.replicate 36 (byte 0)) =
        .ok (OutPoint.new ((List.replicate 36 (byte 0)).take 32)
          (leVal (((List.replicate 36 (byte 0)).drop 32).take 4))) 36
    ∧ OutPoint.from_bytes (OutPoint.new (List.replicate 32 (byte 9)) 77).to_bytes =
        .ok (OutPoint.new (List.replicate 32 (byte 9)) 77) 36 :=
  ⟨spec_C5.1 (List.replicate 35 (byte 0)) (by decide),
   spec_C5.2.1 (List.replicate 36 (byte 0)) (by decide),
   spec_C5.2.2.2 (OutPoint.new (List.replicate 32 (byte 9)) 77) (by decide)⟩

/-- C6: the claim says `Script::from_bytes` propagates the length
prefix's own failure, fails with `InsufficientBytes` unless
`prefix_length + declared_length` bytes are available in total, and
otherwise returns the `declared_length` bytes after the prefix
(consuming `prefix_length + declared_length`), with the empty-script
facts for `[0x00]`.  All of that holds whenever the `usize` sum
`prefix_len + len` stays below `2^64` — but on the 9-byte buffer
`[0xFF, 0xF7, 0xFF, 0xFF, 0xFF, 0xFF, 0xFF, 0xFF, 0xFF]`, whose
declared length `2^64 - 9` makes the sum overflow, the code panics
instead of returning `Err(InsufficientBytes)` as the claim (and the
function's own comment about returning an error when bytes are short)
requires. -/
theorem spec_C6 :
    (∀ (bs : List Byte) (e : BitcoinError),
      decode_compact_size bs = .err e → Script.from_bytes bs = .err e)
    ∧ (∀ (bs : List Byte) (len plen : Nat),
        decode_compact_size bs = .ok len plen → plen + len < 2 ^ 64 →
        bs.length < plen + len → Script.from_bytes bs = .err .InsufficientBytes)
    ∧ (∀ (bs : List Byte) (len plen : Nat),
        decode_compact_size bs = .ok len plen → plen + len < 2 ^ 64 →
        plen + len ≤ bs.length →
        Script.from_bytes bs = .ok (Script.new ((bs.drop plen).take len)) (plen + len))
    ∧ (Script.new []).to_bytes = [byte 0]
    ∧ Script.from_bytes [byte 0] = .ok (Script.new []) 1
    ∧ decode_compact_size [byte 0xFF, byte 0xF7, byte 0xFF, byte 0xFF, byte 0xFF,
        byte 0xFF, byte 0xFF, byte 0xFF, byte 0xFF] = .ok (2 ^ 64 - 9) 9
    ∧ ([byte 0xFF, byte 0xF7, byte 0xFF, byte 0xFF, byte 0xFF,
        byte 0xFF, byte 0xFF, byte 0xFF, byte 0xFF] : List Byte).length < 9 + (2 ^ 64 - 9)
    ∧ Script.from_bytes [byte 0xFF, byte 0xF7, byte 0xFF, byte 0xFF, byte 0xFF,
        byte 0xFF, byte 0xFF, byte 0xFF, byte 0xFF] = Outcome.panicked := by
  refine ⟨?_, ?_, ?_, by decide, by decide, by decide, by decide, by decide⟩
  · intro bs e h
    rw [Script.from_bytes, h]
  · intro bs len plen h hof hl
    rw [Script.from_bytes, h]
    dsimp only
    rw [if_neg (by omega), if_pos hl]
  · intro bs len plen h hof hl
    rw [Script.from_bytes, h]
    dsimp only
    rw [if_neg (by omega), if_neg (by omega)]

/-- Witness for C6: the three fallible clauses evaluated at concrete
buffers — a truncated body, a complete one-byte body, and a truncated
`0xFD` length prefix. -/
theorem spec_C6_witness :
    Script.from_bytes [byte 2, byte 9] = .err .InsufficientBytes
    ∧ Script.from_bytes [byte 1, byte 9] =
        .ok (Script.new (([byte 1, byte 9].drop 1).take 1)) (1 + 1)
    ∧ Script.from_bytes [byte 0xFD, byte 0x01] = .err .InsufficientBytes :=
  ⟨spec_C6.2.1 [byte 2, byte 9] 2 1 (by decide) (by decide) (by decide),
   spec_C6.2.2.1 [byte 1, byte 9] 1 1 (by decide) (by decide) (by decide),
   spec_C6.1 [byte 0xFD, byte 0x01] .InsufficientBytes (by decide)⟩

/-- C7: `TransactionInput::from_bytes` decodes an OutPoint, then a
Script starting right after it, then needs 4 more bytes of sequence
number (little-endian) or fails with `InsufficientBytes`; consumed =
OutPoint bytes + Script bytes + 4, and each sub-decoder's failure is
propagated unchanged. -/
theorem spec_C7 :
    (∀ (bs : List Byte) (e : BitcoinError),
      OutPoint.from_bytes bs = .err e → TransactionInput.from_bytes bs = .err e)
    ∧ (∀ (bs : List Byte) (p : OutPoint) (n : Nat) (e : BitcoinError),
        OutPoint.from_bytes bs = .ok p n → Script.from_bytes (bs.drop n) = .err e →
        TransactionInput.from_bytes bs = .err e)
    ∧ (∀ (bs : List Byte) (p : OutPoint) (n : Nat) (sc : Script) (m : Nat),
        OutPoint.from_bytes bs = .ok p n → Script.from_bytes (bs.drop n) = .ok sc m →
        bs.length < n + m + 4 →
        TransactionInput.from_bytes bs = .err .InsufficientBytes)
    ∧ (∀ (bs : List Byte) (p : OutPoint) (n : Nat) (sc : Script) (m : Nat),
        OutPoint.from_bytes bs = .ok p n → Script.from_bytes (bs.drop n) = .ok sc m →
        n + m + 4 ≤ bs.length →
        TransactionInput.from_bytes bs =
          .ok (TransactionInput.new p sc (leVal ((bs.drop (n + m)).take 4)))
            (n + m + 4)) := by
  refine ⟨?_, ?_, ?_, ?_⟩
  · intro bs e h
    rw [TransactionInput.from_bytes, h]
  · intro bs p n e h1 h2
    rw [TransactionInput.from_bytes, h1]
    dsimp only
    rw [h2]
  · intro bs p n sc m h1 h2 hl
    rw [TransactionInput.from_bytes, h1]
    dsimp only
    rw [h2]
    dsimp only
    rw [if_pos hl]
  · intro bs p n sc m h1 h2 hl
    rw [TransactionInput.from_bytes, h1]
    dsimp only
    rw [h2]
    dsimp only
    rw [if_neg (by omega)]

/-- Witness for C7: the four clauses evaluated at concrete buffers —
a short OutPoint, a bad Script prefix after the OutPoint, a missing
sequence number, and a complete 41-byte input. -/
theorem spec_C7_witness :
    TransactionInput.from_bytes [byte 0] = .err .InsufficientBytes
    ∧ TransactionInput.from_bytes (List.replicate 36 (byte 0) ++ [byte 0xFD, byte 1]) =
        .err .InsufficientBytes
    ∧ TransactionInput.from_bytes (List.replicate 37 (byte 0)) = .err .InsufficientBytes
    ∧ TransactionInput.from_bytes
        (List.replicate 36 (byte 0) ++ [byte 0] ++ List.replicate 4 (byte 2)) =
        .ok (TransactionInput.new (OutPoint.new (List.replicate 32 (byte 0)) 0)
          (Script.new [])
          (leVal (((List.replicate 36 (byte 0) ++ [byte 0] ++
            List.replicate 4 (byte 2)).drop (36 + 1)).take 4)))
          (36 + 1 + 4) :=
  ⟨spec_C7.1 [byte 0] .InsufficientBytes (by decide),
   spec_C7.2.1 (List.replicate 36 (byte 0) ++ [byte 0xFD, byte 1])
     (OutPoint.new (List.replicate 32 (byte 0)) 0) 36 .InsufficientBytes
     (by decide) (by decide),
   spec_C7.2.2.1 (List.replicate 37 (byte 0))
     (OutPoint.new (List.replicate 32 (byte 0)) 0) 36 (Script.new []) 1
     (by decide) (by decide) (by decide),
   spec_C7.2.2.2 (List.replicate 36 (byte 0) ++ [byte 0] ++ List.replicate 4 (byte 2))
     (OutPoint.new (List.replicate 32 (byte 0)) 0) 36 (Script.new []) 1
     (by decide) (by decide) (by decide)⟩

/-- C8: `BitcoinTransaction::from_bytes` fails with `InsufficientBytes`
below 4 bytes; reads the version from the first 4 bytes little-endian,
decodes the CompactSize input count at offset 4 (propagating its
error), decodes exactly `input_count` inputs sequentially (propagating
any input sub-decode failure, including when the count claims more
inputs than the bytes contain), then needs 4 bytes of lock time, and
returns consumed = final offset + 4; a buffer claiming two inputs with
only one present fails with `InsufficientBytes`. -/
theorem spec_C8 :
    (∀ bs : List Byte, bs.length < 4 →
      BitcoinTransaction.from_bytes bs = .err .InsufficientBytes)
    ∧ (∀ (bs : List Byte) (e : BitcoinError), 4 ≤ bs.length →
        decode_compact_size (bs.drop 4) = .err e →
        BitcoinTransaction.from_bytes bs = .err e)
    ∧ (∀ (bytes : List Byte) (count offset : Nat) (e : BitcoinError),
        TransactionInput.from_bytes (bytes.drop offset) = .err e →
        decodeInputs bytes (count + 1) offset = .err e)
    ∧ (∀ (bs : List Byte) (cnt c : Nat) (e : BitcoinError), 4 ≤ bs.length →
        decode_compact_size (bs.drop 4) = .ok cnt c →
        decodeInputs bs cnt (c + 4) = .err e →
        BitcoinTransaction.from_bytes bs = .err e)
    ∧ (∀ (bytes : List Byte) (cnt offset : Nat) (inputs : List TransactionInput)
        (off : Nat), decodeInputs bytes cnt offset = .ok inputs off →
        inputs.length = cnt ∧ offset ≤ off)
    ∧ (∀ (bs : List Byte) (cnt c : Nat) (inputs : List TransactionInput) (off : Nat),
        4 ≤ bs.length → decode_compact_size (bs.drop 4) = .ok cnt c →
        decodeInputs bs cnt (c + 4) = .ok inputs off → bs.length < off + 4 →
        BitcoinTransaction.from_bytes bs = .err .InsufficientBytes)
    ∧ (∀ (bs : List Byte) (cnt c : Nat) (inputs : List TransactionInput) (off : Nat),
        4 ≤ bs.length → decode_compact_size (bs.drop 4) = .ok cnt c →
        decodeInputs bs cnt (c + 4) = .ok inputs off → off + 4 ≤ bs.length →
        BitcoinTransaction.from_bytes bs =
          .ok (BitcoinTransaction.new (leVal (bs.take 4)) inputs
            (leVal ((bs.drop off).take 4))) (off + 4))
    ∧ BitcoinTransaction.from_bytes
        (natToLeBytes 4 1 ++ [byte 2] ++
          (List.replicate 36 (byte 0) ++ [byte 0] ++ List.replicate 4 (byte 0xFF)) ++
          natToLeBytes 4 0) = .err .InsufficientBytes := by
  refine ⟨?_, ?_, ?_, ?_, decodeInputs_ok_bounds, ?_, ?_, by decide⟩
  · intro bs h
    rw [BitcoinTransaction.from_bytes, if_pos h]
  · intro bs e h4 hd
    rw [BitcoinTransaction.from_bytes, if_neg (by omega)]
    dsimp only
    rw [hd]
  · intro bytes count offset e h
    rw [decodeInputs_succ, h]
  · intro bs cnt c e h4 hd hi
    rw [BitcoinTransaction.from_bytes, if_neg (by omega)]
    dsimp only
    rw [hd]
    dsimp only
    rw [hi]
  · intro bs cnt c inputs off h4 hd hi hlock
    rw [BitcoinTransaction.from_bytes, if_neg (by omega)]
    dsimp only
    rw [hd]
    dsimp only
    rw [hi]
    dsimp only
    rw [if_pos hlock]
  · intro bs cnt c inputs off h4 hd hi hlock
    rw [BitcoinTransaction.from_bytes, if_neg (by omega)]
    dsimp only
    rw [hd]
    dsimp only
    rw [hi]
    dsimp only
    rw [if_neg (by omega)]

/-- Witness for C8: the clauses evaluated on concrete buffers — a
3-byte buffer, a truncated count prefix, a loop failure, a missing lock
time, and a complete no-input transaction. -/
theorem spec_C8_witness :
    BitcoinTransaction.from_bytes (List.replicate 3 (byte 0)) = .err .InsufficientBytes
    ∧ BitcoinTransaction.from_bytes (natToLeBytes 4 1 ++ [byte 0xFD, byte 1]) =
        .err .InsufficientBytes
    ∧ decodeInputs (natToLeBytes 4 1 ++ [byte 1]) (0 + 1) 5 = .err .InsufficientBytes
    ∧ BitcoinTransaction.from_bytes (natToLeBytes 4 1 ++ [byte 1]) =
        .err .InsufficientBytes
    ∧ (([] : List TransactionInput).length = 0 ∧ 5 ≤ 5)
    ∧ BitcoinTransaction.from_bytes (natToLeBytes 4 1 ++ [byte 0] ++ [byte 7]) =
        .err .InsufficientBytes
    ∧ BitcoinTransaction.from_bytes (natToLeBytes 4 1 ++ [byte 0] ++ natToLeBytes 4 9) =
        .ok (BitcoinTransaction.new
          (leVal ((natToLeBytes 4 1 ++ [byte 0] ++ natToLeBytes 4 9).take 4)) []
          (leVal (((natToLeBytes 4 1 ++ [byte 0] ++ natToLeBytes 4 9).drop 5).take 4)))
          (5 + 4) :=
  ⟨spec_C8.1 (List.replicate 3 (byte 0)) (by decide),
   spec_C8.2.1 (natToLeBytes 4 1 ++ [byte 0xFD, byte 1]) .InsufficientBytes
     (by decide) (by decide),
   spec_C8.2.2.1 (natToLeBytes 4 1 ++ [byte 1]) 0 5 .InsufficientBytes (by decide),
   spec_C8.2.2.2.1 (natToLeBytes 4 1 ++ [byte 1]) 1 1 .InsufficientBytes
     (by decide) (by decide) (by decide),
   spec_C8.2.2.2.2.1 (natToLeBytes 4 1 ++ [byte 1]) 0 5 [] 5 (by decide),
   spec_C8.2.2.2.2.2.1 (natToLeBytes 4 1 ++ [byte 0] ++ [byte 7]) 0 1 [] 5
     (by decide) (by decide) (by decide) (by decide),
   spec_C8.2.2.2.2.2.2.1 (natToLeBytes 4 1 ++ [byte 0] ++ natToLeBytes 4 9) 0 1 [] 5
     (by decide) (by decide) (by decide) (by decide)⟩

/-- C9: serializing any 32-byte identifier yields a 64-character
lowercase hexadecimal string (32 zero bytes give 64 zero characters);
deserializing fails with the `InvalidFormat` kind whenever the string is
not valid hexadecimal or does not decode to exactly 32 bytes (any
63-character string fails), and deserializing the serialization of any
identifier returns it. -/
theorem spec_C9 :
    (∀ t : Txid, t.bytes.length = 32 →
      (Txid.serialize t).length = 64 ∧
        ∀ c ∈ (Txid.serialize t).data, isLowerHexChar c = true)
    ∧ Txid.serialize ⟨List.replicate 32 (byte 0)⟩ =
        String.mk (List.replicate 64 (Char.ofNat 48))
    ∧ (∀ s : String, s.length = 63 → Txid.deserialize s = .error .InvalidFormat)
    ∧ (∀ s : String, (∃ c ∈ s.data, hexDigitVal c = none) →
        Txid.deserialize s = .error .InvalidFormat)
    ∧ (∀ (s : String) (bs : List Byte), hexDecode s = some bs → bs.length ≠ 32 →
        Txid.deserialize s = .error .InvalidFormat)
    ∧ (∀ t : Txid, t.bytes.length = 32 → Txid.deserialize (Txid.serialize t) = .ok t) := by
  refine ⟨?_, by decide, ?_, ?_, ?_, ?_⟩
  · intro t h
    constructor
    · rw [Txid.serialize, hexEncode_length, h]
    · exact hexEncode_lower t.bytes
  · intro s h
    rw [Txid.deserialize]
    cases hp : hexPairs s.data with
    | none => rw [show hexDecode s = none from hp]
    | some bs =>
      have hlen := hexPairs_length s.data bs hp
      have hs : s.data.length = 63 := h
      omega
  · intro s h
    obtain ⟨c, hc, hnone⟩ := h
    cases hp : hexPairs s.data with
    | none => rw [Txid.deserialize, show hexDecode s = none from hp]
    | some bs => exact absurd hnone (hexPairs_valid_chars s.data bs hp c hc)
  · intro s bs h hne
    rw [Txid.deserialize, show hexDecode s = some bs from h]
    dsimp only
    rw [if_pos hne]
  · intro t h
    rw [Txid.deserialize, Txid.serialize,
      show hexDecode (hexEncode t.bytes) = some t.bytes from hexPairs_hexEncode t.bytes]
    dsimp only
    rw [if_neg (by omega)]

/-- Witness for C9: the clauses evaluated at the all-zero identifier, a
63-character string, a non-hex string, and a 2-character hex string. -/
theorem spec_C9_witness :
    ((Txid.serialize ⟨List.replicate 32 (byte 0)⟩).length = 64 ∧
      ∀ c ∈ (Txid.serialize ⟨List.replicate 32 (byte 0)⟩).data, isLowerHexChar c = true)
    ∧ Txid.deserialize (String.mk (List.replicate 63 (Char.ofNat 48))) =
        .error .InvalidFormat
    ∧ Txid.deserialize (String.mk [Char.ofNat 122, Char.ofNat 122]) =
        .error .InvalidFormat
    ∧ Txid.deserialize (String.mk [Char.ofNat 48, Char.ofNat 48]) =
        .error .InvalidFormat
    ∧ Txid.deserialize (Txid.serialize ⟨List.replicate 32 (byte 0)⟩) =
        .ok ⟨List.replicate 32 (byte 0)⟩ :=
  ⟨spec_C9.1 ⟨List.replicate 32 (byte 0)⟩ (by decide),
   spec_C9.2.2.1 (String.mk (List.replicate 63 (Char.ofNat 48))) (by decide),
   spec_C9.2.2.2.1 (String.mk [Char.ofNat 122, Char.ofNat 122])
     ⟨Char.ofNat 122, by decide, by decide⟩,
   spec_C9.2.2.2.2.1 (String.mk [Char.ofNat 48, Char.ofNat 48]) [byte 0]
     (by decide) (by decide),
   spec_C9.2.2.2.2.2 ⟨List.replicate 32 (byte 0)⟩ (by decide)⟩

/-- C10: every successful binary decode of OutPoint, Script,
TransactionInput, or BitcoinTransaction consumes only a prefix of its
input: appending any suffix leaves the decoded value and consumed count
unchanged, and the consumed count never exceeds the original buffer
length; in particular a transaction buffer with trailing garbage still
decodes, with consumed strictly less than the buffer length. -/
theorem spec_C10 :
    (∀ (b s : List Byte) (p : OutPoint) (n : Nat),
      OutPoint.from_bytes b = .ok p n →
      OutPoint.from_bytes (b ++ s) = .ok p n ∧ n ≤ b.length)
    ∧ (∀ (b s : List Byte) (v : Script) (n : Nat),
        Script.from_bytes b = .ok v n →
        Script.from_bytes (b ++ s) = .ok v n ∧ n ≤ b.length)
    ∧ (∀ (b s : List Byte) (t : TransactionInput) (n : Nat),
        TransactionInput.from_bytes b = .ok t n →
        TransactionInput.from_bytes (b ++ s) = .ok t n ∧ n ≤ b.length)
    ∧ (∀ (b s : List Byte) (tx : BitcoinTransaction) (n : Nat),
        BitcoinTransaction.from_bytes b = .ok tx n →
        BitcoinTransaction.from_bytes (b ++ s) = .ok tx n ∧ n ≤ b.length)
    ∧ (∀ (b s : List Byte) (tx : BitcoinTransaction) (n : Nat),
        BitcoinTransaction.from_bytes b = .ok tx n → s ≠ [] →
        BitcoinTransaction.from_bytes (b ++ s) = .ok tx n ∧ n < (b ++ s).length) := by
  refine ⟨outpoint_from_bytes_append, script_from_bytes_append, input_from_bytes_append,
    tx_from_bytes_append, ?_⟩
  intro b s tx n h hs
  obtain ⟨happ, hle⟩ := tx_from_bytes_append b s tx n h
  have hslen : s.length ≠ 0 := fun h0 => hs (List.eq_nil_of_length_eq_zero h0)
  refine ⟨happ, ?_⟩
  simp only [List.length_append]
  omega

/-- Witness for C10: each decoder evaluated on a concrete buffer with a
one-byte suffix appended. -/
theorem spec_C10_witness :
    (OutPoint.from_bytes (List.replicate 36 (byte 0) ++ [byte 9]) =
        .ok (OutPoint.new (List.replicate 32 (byte 0)) 0) 36
      ∧ 36 ≤ (List.replicate 36 (byte 0)).length)
    ∧ (Script.from_bytes ([byte 1, byte 7] ++ [byte 9]) = .ok (Script.new [byte 7]) 2
      ∧ 2 ≤ ([byte 1, byte 7] : List Byte).length)
    ∧ (TransactionInput.from_bytes
        ((List.replicate 36 (byte 0) ++ [byte 0] ++ List.replicate 4 (byte 2)) ++ [byte 9]) =
        .ok (TransactionInput.new (OutPoint.new (List.replicate 32 (byte 0)) 0)
          (Script.new []) (leVal (List.replicate 4 (byte 2)))) 41
      ∧ 41 ≤ (List.replicate 36 (byte 0) ++ [byte 0] ++ List.replicate 4 (byte 2)).length)
    ∧ (BitcoinTransaction.from_bytes
        ((natToLeBytes 4 1 ++ [byte 0] ++ natToLeBytes 4 9) ++ [byte 9]) =
        .ok (BitcoinTransaction.new 1 [] 9) 9
      ∧ 9 ≤ (natToLeBytes 4 1 ++ [byte 0] ++ natToLeBytes 4 9).length)
    ∧ (BitcoinTransaction.from_bytes
        ((natToLeBytes 4 1 ++ [byte 0] ++ natToLeBytes 4 9) ++ [byte 8]) =
        .ok (BitcoinTransaction.new 1 [] 9) 9
      ∧ 9 < ((natToLeBytes 4 1 ++ [byte 0] ++ natToLeBytes 4 9) ++ [byte 8]).length) :=
  ⟨spec_C10.1 (List.replicate 36 (byte 0)) [byte 9]
     (OutPoint.new (List.replicate 32 (byte 0)) 0) 36 (by decide),
   spec_C10.2.1 [byte 1, byte 7] [byte 9] (Script.new [byte 7]) 2 (by decide),
   spec_C10.2.2.1 (List.replicate 36 (byte 0) ++ [byte 0] ++ List.replicate 4 (byte 2))
     [byte 9]
     (TransactionInput.new (OutPoint.new (List.replicate 32 (byte 0)) 0)
       (Script.new []) (leVal (List.replicate 4 (byte 2)))) 41 (by decide),
   spec_C10.2.2.2.1 (natToLeBytes 4 1 ++ [byte 0] ++ natToLeBytes 4 9) [byte 9]
     (BitcoinTransaction.new 1 [] 9) 9 (by decide),
   spec_C10.2.2.2.2 (natToLeBytes 4 1 ++ [byte 0] ++ natToLeBytes 4 9) [byte 8]
     (BitcoinTransaction.new 1 [] 9) 9 (by decide) (by decide)⟩
